import Mathlib

/-!
Shallow embedding of the alignment and metrics engine of the repository
(`src/evaluators/metrics.py` and `src/evaluators/comparator.py`).

Texts are embedded as `List Char`, Python `float` results as `ℚ` under
exact rational semantics (except the BLEU score, which lives in `ℝ`
because the source calls `math.exp` / `math.log`), and the Python `int`
`position` counter of the backtrace as `ℤ`, since it can become negative.

The spec-level notion of minimum edit distance is Mathlib's `levenshtein`
with `Levenshtein.defaultCost` (unit cost for insert/delete/substitute);
the code's two implementations (the rolling-row `_levenshtein_distance`
and the full table of `get_error_details`) are proved against it.
-/

namespace ShoBond

/-- Unit-cost Levenshtein distance (Mathlib's `levenshtein` with the
default cost structure): the spec-level "Edit-Distance Engine" contract,
generic in the token type. -/
def lev {α : Type} [DecidableEq α] (xs ys : List α) : ℕ :=
  levenshtein Levenshtein.defaultCost xs ys

/-- Unit-cost Levenshtein distance on character lists: the spec-level
"Edit-Distance Engine" contract at character granularity. -/
def levC (s t : List Char) : ℕ := lev s t

/-- Unit-cost Levenshtein distance on word lists: the spec-level
"Edit-Distance Engine" contract at word granularity. -/
def levW (s t : List (List Char)) : ℕ := lev s t

/-- Semantics of Python `min(items, key=first component)` as used in
`get_error_details`: scan left to right, keeping the current best and
replacing it only when a strictly smaller key appears, so the first item
attaining the minimum key is returned. -/
def pyMinFst {α : Type} : ℕ × α → List (ℕ × α) → ℕ × α
  | best, [] => best
  | best, x :: rest => pyMinFst (if x.1 < best.1 then x else best) rest

/-- Operation labels stored in the `ops` table of `get_error_details`. -/
inductive Op where
  | delete
  | insert
  | substitute
  | matched
  deriving DecidableEq, Repr

/-- Entries of the `ops` table of `get_error_details`: the operation label
together with the reference / hypothesis fragments stored with it. -/
structure OpEntry where
  op : Op
  ref : List Char
  hyp : List Char
  deriving DecidableEq, Repr

/-- One row of the `dp` table of `get_error_details`, as a function of the
remaining column characters: with `Dp` the previous row (as a function of
the reversed hypothesis prefix read so far), `Dstep Dp a plen rq` is the
cell `dp[i][j]` where `a :: p` (with `p.length = plen`) is the reversed
`i`-character reference prefix and `rq` the reversed `j`-character
hypothesis prefix.  `dp[i][0] = i`; on a character match the source copies
`dp[i-1][j-1]`; otherwise it takes Python `min` over the cost list in the
fixed order delete, insert, substitute. -/
def Dstep (Dp : List Char → ℕ) (a : Char) (plen : ℕ) : List Char → ℕ
  | [] => plen + 1
  | b :: q =>
    if a = b then Dp q
    else (pyMinFst (Dp (b :: q) + 1, Op.delete)
      [(Dstep Dp a plen q + 1, Op.insert), (Dp q + 1, Op.substitute)]).1

/-- Cell values of the `dp` table built by `get_error_details`:
`D rp rq = dp[i][j]` where `rp` / `rq` are the reversed length-`i` / `j`
prefixes of the reference / hypothesis (`dp[0][j] = j`). -/
def D : List Char → List Char → ℕ
  | [], q => q.length
  | a :: p, q => Dstep (D p) a p.length q

/-- Entries of the `ops` table built by `get_error_details`, at the cell
whose reversed reference / hypothesis prefixes are the two arguments.
`ops[0][0]` is `None`; the boundary rows hold pure deletions / insertions;
an interior cell holds `match` on equal characters and otherwise the entry
chosen by the same Python `min` call that sets `dp[i][j]`. -/
def opAt : List Char → List Char → Option OpEntry
  | [], [] => none
  | a :: _, [] => some ⟨Op.delete, [a], []⟩
  | [], b :: _ => some ⟨Op.insert, [], [b]⟩
  | a :: p, b :: q =>
    if a = b then some ⟨Op.matched, [a], [b]⟩
    else some (pyMinFst (D p (b :: q) + 1, (⟨Op.delete, [a], []⟩ : OpEntry))
      [(D (a :: p) q + 1, ⟨Op.insert, [], [b]⟩),
       (D p q + 1, ⟨Op.substitute, [a], [b]⟩)]).2

/-- Error classification labels produced by `_classify_error` (the source
returns the Japanese strings for deletion, insertion, substitution with a
possible homophone, and unknown). -/
inductive EType where
  | deletionE
  | insertionE
  | substitutionHomophone
  | unknownE
  deriving DecidableEq, Repr

/-- Embedding of `_classify_error`; the two character arguments are
received but not inspected, exactly as in the source. -/
def _classify_error (op : Op) (_refC _hypC : List Char) : EType :=
  match op with
  | Op.delete => EType.deletionE
  | Op.insert => EType.insertionE
  | Op.substitute => EType.substitutionHomophone
  | Op.matched => EType.unknownE

/-- Error dictionaries appended by the backtrace loop of
`get_error_details` (keys `type`, `position`, `reference`, `hypothesis`,
`error_type`). -/
structure ErrEntry where
  type : Op
  position : ℤ
  reference : List Char
  hypothesis : List Char
  error_type : EType
  deriving DecidableEq, Repr

/-- Backtrace steps taken from a cell whose reversed reference prefix is
`a :: p`: `btp` performs the backtrace from cells one reference row up.
The remaining two arguments are the reversed hypothesis prefix of the cell
and the running `position` counter.  Mirrors the `while` loop of
`get_error_details`: errors are emitted in discovery (right-to-left)
order, matches emit nothing, and the unreachable fall-through of the
Python `else: break` arm returns the empty continuation. -/
def btStep (p : List Char) (btp : List Char → ℤ → List ErrEntry) (a : Char) :
    List Char → ℤ → List ErrEntry
  | [], pos =>
      ⟨Op.delete, pos, [a], [], _classify_error Op.delete [a] []⟩ :: btp [] (pos - 1)
  | b :: q, pos =>
      if a = b then btp q (pos - 1)
      else
        let e := (pyMinFst (D p (b :: q) + 1, (⟨Op.delete, [a], []⟩ : OpEntry))
          [(D (a :: p) q + 1, ⟨Op.insert, [], [b]⟩),
           (D p q + 1, ⟨Op.substitute, [a], [b]⟩)]).2
        match e.op with
        | Op.delete =>
            ⟨e.op, pos, e.ref, e.hyp, _classify_error e.op e.ref e.hyp⟩ ::
              btp (b :: q) (pos - 1)
        | Op.insert =>
            ⟨e.op, pos, e.ref, e.hyp, _classify_error e.op e.ref e.hyp⟩ ::
              btStep p btp a q (pos - 1)
        | Op.substitute =>
            ⟨e.op, pos, e.ref, e.hyp, _classify_error e.op e.ref e.hyp⟩ ::
              btp q (pos - 1)
        | Op.matched => []

/-- Backtrace steps along the top row of the table (`i = 0`): all the
remaining operations are insertions of the hypothesis prefix. -/
def btNilRow : List Char → ℤ → List ErrEntry
  | [], _ => []
  | b :: q, pos =>
      ⟨Op.insert, pos, [], [b], _classify_error Op.insert [] [b]⟩ ::
        btNilRow q (pos - 1)

/-- Backtrace of `get_error_details` from the cell whose reversed
reference / hypothesis prefixes are the first two arguments down to
`(0, 0)`, with the running `position` counter, producing errors in
discovery order. -/
def backtrace : List Char → List Char → ℤ → List ErrEntry
  | [] => btNilRow
  | a :: p => btStep p (backtrace p) a

/-- Embedding of `get_error_details`: backtrace from `(m, n)` with the
`position` counter starting at `max(m, n)`, then reverse the collected
list. -/
def get_error_details (reference hypothesis : List Char) : List ErrEntry :=
  (backtrace reference.reverse hypothesis.reverse
    (max reference.length hypothesis.length : ℤ)).reverse

/-- Inner loop of `_levenshtein_distance`: build the current row from the
previous one.  `buildRow c1 s2 prev d` consumes the remaining column
characters `s2` in step with the remaining previous-row cells, `d` being
the last cell already appended to the current row; each new cell is
`min(insertions, deletions, substitutions)` exactly as in the source. -/
def buildRow (c1 : Char) : List Char → List ℕ → ℕ → List ℕ
  | c2 :: s2, p0 :: p1 :: ps, d =>
      let cell := min (min (p1 + 1) (d + 1)) (p0 + if c1 ≠ c2 then 1 else 0)
      cell :: buildRow c1 s2 (p1 :: ps) cell
  | _, _, _ => []

/-- Outer loop of `_levenshtein_distance`: fold `buildRow` over the
characters of `s1`, each new row starting with `i + 1`. -/
def levLoop : List Char → List Char → List ℕ → ℕ → List ℕ
  | [], _, prev, _ => prev
  | c1 :: s1, s2, prev, i =>
      levLoop s1 s2 ((i + 1) :: buildRow c1 s2 prev (i + 1)) (i + 1)

/-- Body of `_levenshtein_distance` after the argument swap: early return
`len(s1)` on an empty `s2`, otherwise run the rolling-row loop from
`range(len(s2) + 1)` and read the last cell of the final row. -/
def levCore (s1 s2 : List Char) : ℕ :=
  if s2.length = 0 then s1.length
  else (levLoop s1 s2 (List.range (s2.length + 1)) 0).getLastD 0

/-- Embedding of `_levenshtein_distance`, including the initial swap that
puts the longer string first. -/
def _levenshtein_distance (s1 s2 : List Char) : ℕ :=
  if s1.length < s2.length then levCore s2 s1 else levCore s1 s2

/-- Whitespace test used for Python `str.split()` / `str.strip()` and for
`\s` in `re` on text patterns (ASCII whitespace plus the Unicode
whitespace code points). -/
def isPySpace (c : Char) : Bool :=
  c = ' ' || c = '\t' || c = '\n' || c = '\r' || c = '\x0b' || c = '\x0c' ||
  c = '\x1c' || c = '\x1d' || c = '\x1e' || c = '\x1f' || c = '\x85' ||
  c = '\xa0' || c = '\u1680' || c = '\u2000' || c = '\u2001' || c = '\u2002' ||
  c = '\u2003' || c = '\u2004' || c = '\u2005' || c = '\u2006' || c = '\u2007' ||
  c = '\u2008' || c = '\u2009' || c = '\u200a' || c = '\u2028' || c = '\u2029' ||
  c = '\u202f' || c = '\u205f' || c = '\u3000'

/-- Accumulator-based tokenizer behind `pySplit` (`acc` is the current
token, reversed). -/
def splitGo : List Char → List Char → List (List Char)
  | [], acc => if acc = [] then [] else [acc.reverse]
  | c :: rest, acc =>
      if isPySpace c then
        if acc = [] then splitGo rest [] else acc.reverse :: splitGo rest []
      else splitGo rest (c :: acc)

/-- Python `str.split()` with no argument: maximal runs of non-whitespace
characters, with no empty tokens. -/
def pySplit (l : List Char) : List (List Char) := splitGo l []

/-- Python `" ".join(words)`. -/
def joinSpace (ws : List (List Char)) : List Char := List.intercalate [' '] ws

/-- Embedding of `_simple_cer`. -/
def _simple_cer (reference hypothesis : List Char) : ℚ :=
  if reference = [] then (if hypothesis = [] then 0 else 1)
  else (_levenshtein_distance reference hypothesis : ℚ) / (reference.length : ℚ)

/-- Embedding of `_simple_wer`: the distance is taken between the
space-joined word lists, then divided by the reference word count. -/
def _simple_wer (reference hypothesis : List Char) : ℚ :=
  let refWords := pySplit reference
  let hypWords := pySplit hypothesis
  if refWords = [] then (if hypWords = [] then 0 else 1)
  else (_levenshtein_distance (joinSpace refWords) (joinSpace hypWords) : ℚ) /
    (refWords.length : ℚ)

/-- Embedding of `calculate_cer` on the fallback (`jiwer` absent) path,
which is the built-in implementation the claims are about. -/
def calculate_cer (reference hypothesis : List Char) : ℚ :=
  _simple_cer reference hypothesis

/-- Embedding of `calculate_wer` on the fallback (`jiwer` absent) path. -/
def calculate_wer (reference hypothesis : List Char) : ℚ :=
  _simple_wer reference hypothesis

/-- Round to the nearest integer, ties to even: the semantics of Python
`round` on exact values. -/
def rndHalfEven (q : ℚ) : ℤ :=
  if q - ⌊q⌋ < 1/2 then ⌊q⌋
  else if (1 : ℚ)/2 < q - ⌊q⌋ then ⌊q⌋ + 1
  else if Even ⌊q⌋ then ⌊q⌋ else ⌊q⌋ + 1

/-- Python `round(x, 2)` under exact rational semantics. -/
def pyRound2 (q : ℚ) : ℚ := (rndHalfEven (q * 100) : ℚ) / 100

/-- Embedding of `calculate_accuracy`. -/
def calculate_accuracy (reference hypothesis : List Char) : ℚ :=
  if reference = [] then (if hypothesis = [] then 100 else 0)
  else pyRound2 (max 0 ((1 - calculate_cer reference hypothesis) * 100))

/-- Sliding n-gram windows in Python loop order, as the list of grams with
multiplicity (for `n ≥ 1`, which is the only way `get_ngrams` is called);
the dict of `get_ngrams` is built from this list by `bump`. -/
def ngramsList (n : ℕ) : List (List Char) → List (List (List Char))
  | [] => []
  | w :: rest =>
      if n ≤ (w :: rest).length then ((w :: rest).take n) :: ngramsList n rest
      else []

/-- One iteration of the dict-building loop of `get_ngrams`:
`ngrams[gram] = ngrams.get(gram, 0) + 1`, on a dict embedded as an
insertion-ordered association list. -/
def bump (d : List (List (List Char) × ℕ)) (g : List (List Char)) :
    List (List (List Char) × ℕ) :=
  if d.any (fun p => p.1 = g) then
    d.map (fun p => if p.1 = g then (p.1, p.2 + 1) else p)
  else d ++ [(g, 1)]

/-- Embedding of `get_ngrams`: split the text into words and count the
n-gram windows into an insertion-ordered dict. -/
def get_ngrams (text : List Char) (n : ℕ) : List (List (List Char) × ℕ) :=
  (ngramsList n (pySplit text)).foldl bump []

/-- Dict lookup with default `0` (`ref_ngrams[gram]` under the guard
`gram in ref_ngrams`). -/
def dictVal (d : List (List (List Char) × ℕ)) (g : List (List Char)) : ℕ :=
  ((d.find? (fun p => p.1 = g)).map Prod.snd).getD 0

/-- One order-`n` clipped precision of `_simple_bleu`: clipped matches
over total hypothesis n-grams, `0` when the hypothesis has no n-grams of
this order or a zero total. -/
def bleuScore (reference hypothesis : List Char) (n : ℕ) : ℚ :=
  let refNg := get_ngrams reference n
  let hypNg := get_ngrams hypothesis n
  if hypNg = [] then 0
  else
    let matchCount : ℕ := hypNg.foldl
      (fun acc p => if refNg.any (fun q => q.1 = p.1)
        then acc + min p.2 (dictVal refNg p.1) else acc) 0
    let totalCount : ℕ := hypNg.foldl (fun acc p => acc + p.2) 0
    if 0 < totalCount then (matchCount : ℚ) / (totalCount : ℚ) else 0

/-- Embedding of `_simple_bleu`: `0` for a hypothesis with no tokens;
otherwise the geometric mean `exp(mean(ln p_n))` of the four order
precisions when all are positive and `0` otherwise, scaled by 100. -/
noncomputable def _simple_bleu (reference hypothesis : List Char) : ℝ :=
  if pySplit hypothesis = [] then 0
  else
    let scores := [1, 2, 3, 4].map (bleuScore reference hypothesis)
    (if scores.all (fun s => 0 < s) then
      Real.exp ((scores.map (fun s : ℚ => Real.log (s : ℝ))).sum / (scores.length : ℝ))
    else 0) * 100

/-- Embedding of `calculate_bleu` on the fallback (`sacrebleu` absent)
path. -/
noncomputable def calculate_bleu (reference hypothesis : List Char) : ℝ :=
  _simple_bleu reference hypothesis

/-- State machine for `re.sub(r'\\s+', ' ', text)`: each maximal run of
whitespace is replaced by a single space.  The Boolean state records
whether the scanner is inside a whitespace run (whose single `' '` has
already been emitted). -/
def collapseGo : Bool → List Char → List Char
  | _, [] => []
  | inRun, c :: rest =>
      if isPySpace c then
        (if inRun then collapseGo true rest else ' ' :: collapseGo true rest)
      else c :: collapseGo false rest

/-- Runs of whitespace collapsed to single spaces:
`re.sub(r'\\s+', ' ', text)`. -/
def collapseWS (l : List Char) : List Char := collapseGo false l

/-- Python `str.strip()`: drop whitespace from both ends. -/
def pyStrip (l : List Char) : List Char :=
  ((l.dropWhile (fun c => isPySpace c)).reverse.dropWhile
    (fun c => isPySpace c)).reverse

/-- Embedding of `TextComparator._normalize_text`: pass-through when the
comparator was built with `normalize=False`, otherwise replace ideographic
spaces, collapse whitespace runs, and strip. -/
def _normalize_text (normalizeFlag : Bool) (text : List Char) : List Char :=
  if ¬ normalizeFlag then text
  else pyStrip (collapseWS (text.map (fun c => if c = '　' then ' ' else c)))

/-- Embedding of the comparator dataclass `ErrorDetail`. -/
structure ErrorDetail where
  position : ℤ
  reference_text : List Char
  hypothesis_text : List Char
  error_type : EType
  deriving DecidableEq, Repr

/-- Embedding of the comparator dataclass `ComparisonResult` (the
`source_info` pass-through field is omitted as opaque). -/
structure ComparisonResult where
  reference : List Char
  hypothesis : List Char
  accuracy : ℚ
  wer : ℚ
  cer : ℚ
  bleu : ℝ
  errors : List ErrorDetail

/-- Embedding of `TextComparator.compare`; the first argument is the
`normalize` flag the comparator was constructed with. -/
noncomputable def TextComparator.compare (normalizeFlag : Bool)
    (reference hypothesis : List Char) : ComparisonResult :=
  let refN := _normalize_text normalizeFlag reference
  let hypN := _normalize_text normalizeFlag hypothesis
  { reference := reference
    hypothesis := hypothesis
    accuracy := calculate_accuracy refN hypN
    wer := calculate_wer refN hypN
    cer := calculate_cer refN hypN
    bleu := calculate_bleu refN hypN
    errors := (get_error_details refN hypN).map
      (fun e => ⟨e.position, e.reference, e.hypothesis, e.error_type⟩) }

/-- Proof-side description of one row of the rolling-row loop of
`_levenshtein_distance`: the list of spec-level distances from `rp` (the
reversed consumed part of `s1`) to the reversed prefixes of `s2` extending
`rq` (the reversed already-consumed part of `s2`). -/
def cellsFrom (rp rq : List Char) : List Char → List ℕ
  | [] => [lev rp rq]
  | c :: rest => lev rp rq :: cellsFrom rp (c :: rq) rest

/-- Spec-level clipped n-gram precision (the spec's "count each n-gram of
the hypothesis at most as many times as it occurs in the reference, sum
clipped matches, divide by total hypothesis n-grams of that order"). -/
def clippedPrecision (reference hypothesis : List Char) (n : ℕ) : ℚ :=
  let hg := ngramsList n (pySplit hypothesis)
  let rg := ngramsList n (pySplit reference)
  if hg = [] then 0
  else ((∑ g ∈ hg.toFinset, min (hg.count g) (rg.count g) : ℕ) : ℚ) / (hg.length : ℚ)

/-- Concrete four-token text `"a a a a"` used as a test vector. -/
def wtxt : List Char := ['a', ' ', 'a', ' ', 'a', ' ', 'a']

variable {α : Type} [DecidableEq α]

theorem lev_nil_left (ys : List α) : lev [] ys = ys.length := by
  induction ys with
  | nil => rfl
  | cons y ys ih => simp [lev, levenshtein_nil_cons, Levenshtein.defaultCost] at ih ⊢; omega

theorem lev_nil_right (xs : List α) : lev xs [] = xs.length := by
  induction xs with
  | nil => rfl
  | cons x xs ih => simp [lev, levenshtein_cons_nil, Levenshtein.defaultCost] at ih ⊢; omega

theorem lev_cons_cons (x : α) (xs : List α) (y : α) (ys : List α) :
    lev (x :: xs) (y :: ys) =
      min (lev xs (y :: ys) + 1)
        (min (lev (x :: xs) ys + 1) (lev xs ys + if x = y then 0 else 1)) := by
  by_cases h : x = y <;>
    simp [lev, levenshtein_cons_cons, Levenshtein.defaultCost, h] <;> omega

/-- Deleting one leading token costs at most one. -/
theorem lev_le_cons_left (x : α) (xs ys : List α) :
    lev (x :: xs) ys ≤ lev xs ys + 1 := by
  cases ys with
  | nil => simp [lev_nil_right]
  | cons y ys => rw [lev_cons_cons]; omega

/-- Inserting one leading token costs at most one. -/
theorem lev_le_cons_right (y : α) (xs ys : List α) :
    lev xs (y :: ys) ≤ lev xs ys + 1 := by
  cases xs with
  | nil => simp [lev_nil_left]
  | cons x xs => rw [lev_cons_cons]; omega

/-- Removing one leading token from the second list changes the distance
by at most one. -/
theorem le_lev_cons_right (y : α) (xs ys : List α) :
    lev xs ys ≤ lev xs (y :: ys) + 1 := by
  induction xs with
  | nil => simp [lev_nil_left]; omega
  | cons x xt ih =>
    have h1 := lev_le_cons_left x xt ys
    rw [lev_cons_cons]
    omega

/-- Removing one leading token from the first list changes the distance
by at most one. -/
theorem le_lev_cons_left (x : α) (xs ys : List α) :
    lev xs ys ≤ lev (x :: xs) ys + 1 := by
  induction ys with
  | nil => simp [lev_nil_right]; omega
  | cons y yt ih =>
    have h1 := lev_le_cons_right y xs yt
    rw [lev_cons_cons]
    omega

/-- On equal heads the edit distance reduces to the distance of the
tails. -/
theorem lev_cons_same (x : α) (xs ys : List α) :
    lev (x :: xs) (x :: ys) = lev xs ys := by
  have h1 := le_lev_cons_right x xs ys
  have h2 := le_lev_cons_left x xs ys
  rw [lev_cons_cons]
  simp only [eq_self_iff_true, if_true]
  omega

theorem lev_self (xs : List α) : lev xs xs = 0 := by
  induction xs with
  | nil => rfl
  | cons x xs ih => rw [lev_cons_same]; exact ih

/-- Appending one token to each list satisfies the same three-way
minimum recurrence as prepending one token to each. -/
theorem lev_snoc_snoc (x y : α) (xs ys : List α) :
    lev (xs ++ [x]) (ys ++ [y]) =
      min (lev xs (ys ++ [y]) + 1)
        (min (lev (xs ++ [x]) ys + 1) (lev xs ys + if x = y then 0 else 1)) := by
  induction xs generalizing ys with
  | nil =>
    induction ys with
    | nil => simp only [List.nil_append, lev_cons_cons]
    | cons y0 yt ihy =>
      simp only [List.nil_append, List.cons_append] at ihy ⊢
      rw [lev_cons_cons x [] y0 (yt ++ [y]), lev_cons_cons x [] y0 yt, ihy]
      simp only [lev_nil_left, List.length_append, List.length_cons, List.length_nil]
      simp only [← min_add_add_right]
      apply le_antisymm <;> simp only [le_min_iff, min_le_iff] <;> omega
  | cons x0 xt ihx =>
    induction ys with
    | nil =>
      have h1 := ihx []
      simp only [List.nil_append, List.cons_append] at h1 ⊢
      rw [lev_cons_cons x0 (xt ++ [x]) y [], lev_cons_cons x0 xt y [], h1]
      simp only [lev_nil_right, List.length_append, List.length_cons, List.length_nil]
      simp only [← min_add_add_right]
      apply le_antisymm <;> simp only [le_min_iff, min_le_iff] <;> omega
    | cons y0 yt ihy =>
      have h1 := ihx (y0 :: yt)
      have h2 := ihx yt
      simp only [List.cons_append] at h1 h2 ihy ⊢
      rw [lev_cons_cons x0 (xt ++ [x]) y0 (yt ++ [y]),
        lev_cons_cons x0 xt y0 (yt ++ [y]),
        lev_cons_cons x0 (xt ++ [x]) y0 yt,
        lev_cons_cons x0 xt y0 yt, h1, h2, ihy]
      simp only [← min_add_add_right]
      apply le_antisymm <;> simp only [le_min_iff, min_le_iff] <;> omega

/-- The unit-cost edit distance is symmetric. -/
theorem lev_comm (xs ys : List α) : lev xs ys = lev ys xs := by
  induction xs generalizing ys with
  | nil => simp [lev_nil_left, lev_nil_right]
  | cons x0 xt ihx =>
    induction ys with
    | nil => simp [lev_nil_left, lev_nil_right]
    | cons y0 yt ihy =>
      rw [lev_cons_cons, lev_cons_cons y0 yt x0 xt, ihx (y0 :: yt), ihx yt, ← ihy]
      have hc : (if x0 = y0 then 0 else 1) = (if y0 = x0 then 0 else 1) := by
        by_cases h : x0 = y0 <;> simp [h, Ne.symm, eq_comm]
      rw [hc]
      apply le_antisymm <;> simp only [le_min_iff, min_le_iff] <;> omega

/-- The unit-cost edit distance is invariant under reversing both
lists. -/
theorem lev_reverse (xs ys : List α) : lev xs.reverse ys.reverse = lev xs ys := by
  induction xs generalizing ys with
  | nil => simp [lev_nil_left, lev_nil_right]
  | cons x0 xt ihx =>
    induction ys with
    | nil => simp [lev_nil_left, lev_nil_right]
    | cons y0 yt ihy =>
      have h1 := ihx (y0 :: yt)
      have h2 := ihx yt
      simp only [List.reverse_cons] at ihy h1 h2 ⊢
      rw [lev_snoc_snoc, lev_cons_cons, h1, h2, ihy]

/-- Distance between two runs of the same character whose lengths differ
by one. -/
theorem lev_replicate_succ (c : α) (n : ℕ) :
    lev (List.replicate (n + 1) c) (List.replicate n c) = 1 := by
  induction n with
  | zero => simp [List.replicate, lev_nil_right]
  | succ n ih =>
    simp only [List.replicate_succ] at ih ⊢
    rw [lev_cons_same]
    exact ih


/-- The key returned by Python `min` over three items is the minimum
key. -/
theorem pyMinFst3_fst {β : Type} (x y z : ℕ) (a b c : β) :
    (pyMinFst (x, a) [(y, b), (z, c)]).1 = min x (min y z) := by
  simp only [pyMinFst]
  split_ifs <;> simp_all <;> omega

/-- The item returned by Python `min` over three items is the first item
attaining the minimum key. -/
theorem pyMinFst3_snd {β : Type} (x y z : ℕ) (a b c : β) :
    (pyMinFst (x, a) [(y, b), (z, c)]).2 =
      if x ≤ y ∧ x ≤ z then a else if y ≤ z then b else c := by
  simp only [pyMinFst]
  split_ifs <;> simp_all <;> omega

/-- One row of the full `dp` table agrees with the spec-level distance,
given that the previous row does. -/
theorem Dstep_eq_lev (a : Char) (p : List Char) (hp : ∀ q, D p q = lev p q) :
    ∀ q, Dstep (D p) a p.length q = lev (a :: p) q := by
  intro q
  induction q with
  | nil => simp [Dstep, lev_nil_right]
  | cons b q ih =>
    by_cases hab : a = b
    · subst hab
      simp only [Dstep, eq_self_iff_true, if_true]
      rw [hp q, lev_cons_same]
    · simp only [Dstep, if_neg hab]
      rw [pyMinFst3_fst, hp (b :: q), hp q, ih, lev_cons_cons, if_neg hab]

/-- The full `dp` table of `get_error_details` holds exactly the
spec-level distances between the (reversed) prefixes. -/
theorem D_eq_lev : ∀ p q : List Char, D p q = lev p q := by
  intro p
  induction p with
  | nil => intro q; simp [D, lev_nil_left]
  | cons a p ih =>
    intro q
    rw [show D (a :: p) q = Dstep (D p) a p.length q from rfl]
    exact Dstep_eq_lev a p ih q

theorem cellsFrom_eq_cons (rp rq s : List Char) :
    cellsFrom rp rq s = lev rp rq :: (cellsFrom rp rq s).tail := by
  cases s <;> rfl

/-- The inner loop of `_levenshtein_distance` maps a correct previous row
to (the tail of) a correct next row. -/
theorem buildRow_spec (c1 : Char) : ∀ (s rq rp : List Char),
    buildRow c1 s (cellsFrom rp rq s) (lev (c1 :: rp) rq) =
      (cellsFrom (c1 :: rp) rq s).tail := by
  intro s
  induction s with
  | nil => intro rq rp; rfl
  | cons c2 s2 ih =>
    intro rq rp
    have hexp : cellsFrom rp rq (c2 :: s2) =
        lev rp rq :: lev rp (c2 :: rq) :: (cellsFrom rp (c2 :: rq) s2).tail := by
      rw [show cellsFrom rp rq (c2 :: s2) = lev rp rq :: cellsFrom rp (c2 :: rq) s2
          from rfl, ← cellsFrom_eq_cons]
    rw [hexp]
    simp only [buildRow]
    have hc : min (min (lev rp (c2 :: rq) + 1) (lev (c1 :: rp) rq + 1))
        (lev rp rq + if c1 ≠ c2 then 1 else 0) = lev (c1 :: rp) (c2 :: rq) := by
      rw [lev_cons_cons]
      by_cases h : c1 = c2 <;>
        simp only [h, ne_eq, eq_self_iff_true, not_true_eq_false, not_false_iff,
          if_true, if_false] <;> omega
    rw [hc, ← cellsFrom_eq_cons rp (c2 :: rq) s2, ih (c2 :: rq) rp]
    exact (cellsFrom_eq_cons (c1 :: rp) (c2 :: rq) s2).symm

/-- The outer loop of `_levenshtein_distance` keeps the row of spec-level
distances as its invariant. -/
theorem levLoop_spec (s2 : List Char) : ∀ (s1rest rp : List Char) (i : ℕ),
    i = rp.length →
    levLoop s1rest s2 (cellsFrom rp [] s2) i =
      cellsFrom (s1rest.reverse ++ rp) [] s2 := by
  intro s1rest
  induction s1rest with
  | nil => intro rp i _; simp [levLoop]
  | cons c1 rest ih =>
    intro rp i hi
    subst hi
    rw [show levLoop (c1 :: rest) s2 (cellsFrom rp [] s2) rp.length =
        levLoop rest s2 ((rp.length + 1) :: buildRow c1 s2 (cellsFrom rp [] s2)
          (rp.length + 1)) (rp.length + 1) from rfl]
    have h2 : rp.length + 1 = lev (c1 :: rp) [] := by simp [lev_nil_right]
    rw [h2, buildRow_spec, ← cellsFrom_eq_cons]
    rw [ih (c1 :: rp) (lev (c1 :: rp) []) (by simp [lev_nil_right])]
    simp [List.append_assoc]

theorem cellsFrom_nil_left : ∀ s rq : List Char,
    cellsFrom [] rq s = List.range' rq.length (s.length + 1) := by
  intro s
  induction s with
  | nil => intro rq; simp [cellsFrom, lev_nil_left, List.range']
  | cons c rest ih =>
    intro rq
    rw [show cellsFrom [] rq (c :: rest) = lev [] rq :: cellsFrom [] (c :: rq) rest
        from rfl, ih (c :: rq), lev_nil_left]
    simp [List.range'_succ]

theorem cellsFrom_getLastD (rp : List Char) : ∀ (s rq : List Char) (d : ℕ),
    (cellsFrom rp rq s).getLastD d = lev rp (s.reverse ++ rq) := by
  intro s
  induction s with
  | nil => intro rq d; simp [cellsFrom]
  | cons c rest ih =>
    intro rq d
    rw [show cellsFrom rp rq (c :: rest) = lev rp rq :: cellsFrom rp (c :: rq) rest
        from rfl, List.getLastD_cons, ih (c :: rq)]
    simp

/-- The rolling-row core computes the spec-level distance of the reversed
inputs. -/
theorem levCore_eq (s1 s2 : List Char) : levCore s1 s2 = lev s1.reverse s2.reverse := by
  rw [levCore]
  by_cases h : s2.length = 0
  · rw [if_pos h, List.length_eq_zero.mp h]
    simp [lev_nil_right]
  · rw [if_neg h, List.range_eq_range',
      show List.range' 0 (s2.length + 1) = cellsFrom [] [] s2 by
        rw [cellsFrom_nil_left]; rfl,
      levLoop_spec s2 s1 [] 0 rfl, cellsFrom_getLastD]
    simp

/-- `_levenshtein_distance` computes the spec-level unit-cost edit
distance. -/
theorem levenshtein_distance_eq_lev (s1 s2 : List Char) :
    _levenshtein_distance s1 s2 = levC s1 s2 := by
  rw [_levenshtein_distance, levC]
  by_cases h : s1.length < s2.length
  · rw [if_pos h, levCore_eq, lev_reverse, lev_comm]
  · rw [if_neg h, levCore_eq, lev_reverse]

theorem D_nil_right (p : List Char) : D p [] = p.length := by
  cases p <;> rfl

/-- Steps of the backtrace within one reference row emit exactly as many
errors as the `dp` cell value, given that the rows above do. -/
theorem btStep_length (p : List Char) (a : Char)
    (hp : ∀ (rq : List Char) (pos : ℤ), (backtrace p rq pos).length = D p rq) :
    ∀ (q : List Char) (pos : ℤ),
      (btStep p (backtrace p) a q pos).length = D (a :: p) q := by
  intro q
  induction q with
  | nil =>
    intro pos
    simp only [btStep, List.length_cons, hp, D_nil_right]
  | cons b q ih =>
    intro pos
    by_cases hab : a = b
    · subst hab
      simp only [btStep, eq_self_iff_true, if_true, hp]
      rw [show D (a :: p) (a :: q) = Dstep (D p) a p.length (a :: q) from rfl]
      simp [Dstep]
    · have hD : D (a :: p) (b :: q) =
          min (D p (b :: q) + 1) (min (D (a :: p) q + 1) (D p q + 1)) := by
        rw [show D (a :: p) (b :: q) = Dstep (D p) a p.length (b :: q) from rfl]
        simp only [Dstep, if_neg hab, pyMinFst3_fst]
        rfl
      simp only [btStep, if_neg hab, pyMinFst3_snd]
      split_ifs with h1 h2
      · simp only [List.length_cons, hp]
        omega
      · simp only [List.length_cons, ih]
        omega
      · simp only [List.length_cons, hp]
        omega

/-- The backtrace emits exactly `dp[i][j]` error entries from cell
`(i, j)`. -/
theorem backtrace_length : ∀ (rp rq : List Char) (pos : ℤ),
    (backtrace rp rq pos).length = D rp rq := by
  intro rp
  induction rp with
  | nil =>
    intro rq
    induction rq with
    | nil => intro pos; rfl
    | cons b q ih =>
      intro pos
      have h : (btNilRow q (pos - 1)).length = D [] q := ih (pos - 1)
      show (btNilRow (b :: q) pos).length = D [] (b :: q)
      simp only [btNilRow, List.length_cons, h]
      rfl
  | cons a p ihp =>
    intro rq pos
    exact btStep_length p a ihp rq pos

/-- Within one reference row, every emitted error has a position at most
the running counter. -/
theorem btStep_pos_le (p : List Char) (a : Char)
    (hp : ∀ (rq : List Char) (pos : ℤ) e, e ∈ backtrace p rq pos → e.position ≤ pos) :
    ∀ (q : List Char) (pos : ℤ) e,
      e ∈ btStep p (backtrace p) a q pos → e.position ≤ pos := by
  intro q
  induction q with
  | nil =>
    intro pos e he
    simp only [btStep, List.mem_cons] at he
    rcases he with rfl | he
    · rfl
    · have := hp [] (pos - 1) e he
      omega
  | cons b q ih =>
    intro pos e he
    by_cases hab : a = b
    · subst hab
      simp only [btStep, eq_self_iff_true, if_true] at he
      have := hp q (pos - 1) e he
      omega
    · simp only [btStep, if_neg hab, pyMinFst3_snd] at he
      split_ifs at he with h1 h2 <;> simp only [List.mem_cons] at he <;>
        rcases he with rfl | he
      · rfl
      · have := hp (b :: q) (pos - 1) e he; omega
      · rfl
      · have := ih (pos - 1) e he; omega
      · rfl
      · have := hp q (pos - 1) e he; omega

/-- Every error emitted by the backtrace has a position at most the
initial counter value. -/
theorem backtrace_pos_le : ∀ (rp rq : List Char) (pos : ℤ) e,
    e ∈ backtrace rp rq pos → e.position ≤ pos := by
  intro rp
  induction rp with
  | nil =>
    intro rq
    induction rq with
    | nil => intro pos e he; simp [backtrace, btNilRow] at he
    | cons b q ih =>
      intro pos e he
      have he' : e ∈ btNilRow (b :: q) pos := he
      simp only [btNilRow, List.mem_cons] at he'
      rcases he' with rfl | he'
      · rfl
      · have := ih (pos - 1) e he'
        omega
  | cons a p ihp =>
    intro rq pos e he
    exact btStep_pos_le p a ihp rq pos e he

/-- Within one reference row, the emitted errors have strictly decreasing
positions. -/
theorem btStep_pos_pairwise (p : List Char) (a : Char)
    (hple : ∀ (rq : List Char) (pos : ℤ) e, e ∈ backtrace p rq pos → e.position ≤ pos)
    (hp : ∀ (rq : List Char) (pos : ℤ),
      (backtrace p rq pos).Pairwise (fun e f => f.position < e.position)) :
    ∀ (q : List Char) (pos : ℤ),
      (btStep p (backtrace p) a q pos).Pairwise (fun e f => f.position < e.position) := by
  intro q
  induction q with
  | nil =>
    intro pos
    simp only [btStep]
    refine List.Pairwise.cons ?_ (hp [] (pos - 1))
    intro f hf
    show f.position < pos
    have := hple [] (pos - 1) f hf
    omega
  | cons b q ih =>
    intro pos
    by_cases hab : a = b
    · subst hab
      simp only [btStep, eq_self_iff_true, if_true]
      exact hp q (pos - 1)
    · simp only [btStep, if_neg hab, pyMinFst3_snd]
      split_ifs with h1 h2
      · refine List.Pairwise.cons ?_ (hp (b :: q) (pos - 1))
        intro f hf
        show f.position < pos
        have := hple (b :: q) (pos - 1) f hf
        omega
      · refine List.Pairwise.cons ?_ (ih (pos - 1))
        intro f hf
        show f.position < pos
        have := btStep_pos_le p a hple q (pos - 1) f hf
        omega
      · refine List.Pairwise.cons ?_ (hp q (pos - 1))
        intro f hf
        show f.position < pos
        have := hple q (pos - 1) f hf
        omega

/-- The backtrace emits errors with strictly decreasing positions. -/
theorem backtrace_pos_pairwise : ∀ (rp rq : List Char) (pos : ℤ),
    (backtrace rp rq pos).Pairwise (fun e f => f.position < e.position) := by
  intro rp
  induction rp with
  | nil =>
    intro rq
    induction rq with
    | nil => intro pos; exact List.Pairwise.nil
    | cons b q ih =>
      intro pos
      show (btNilRow (b :: q) pos).Pairwise (fun e f => f.position < e.position)
      simp only [btNilRow]
      refine List.Pairwise.cons ?_ (ih (pos - 1))
      intro f hf
      show f.position < pos
      have := backtrace_pos_le [] q (pos - 1) f hf
      omega
  | cons a p ihp =>
    intro rq pos
    exact btStep_pos_pairwise p a (backtrace_pos_le p) ihp rq pos

/-- Comparing any sequence against itself leaves the backtrace empty. -/
theorem backtrace_self : ∀ (s : List Char) (pos : ℤ), backtrace s s pos = [] := by
  intro s
  induction s with
  | nil => intro pos; rfl
  | cons a p ih =>
    intro pos
    show btStep p (backtrace p) a (a :: p) pos = []
    simp only [btStep, eq_self_iff_true, if_true]
    exact ih (pos - 1)

theorem rndHalfEven_int (n : ℤ) : rndHalfEven (n : ℚ) = n := by
  rw [rndHalfEven]
  simp [Int.floor_intCast]

/-- Strictly below a half-integer boundary, rounding stays below the
integer. -/
theorem rndHalfEven_lt {q : ℚ} {n : ℤ} (h : q < (n : ℚ) - 1/2) :
    rndHalfEven q < n := by
  have hfl : ⌊q⌋ < n := Int.floor_lt.mpr (by linarith)
  rw [rndHalfEven]
  split_ifs with h1 h2 h3
  · omega
  · have h5 : (⌊q⌋ : ℚ) < (n : ℚ) - 1 := by linarith
    have h6 : ⌊q⌋ < n - 1 := by exact_mod_cast h5
    omega
  · omega
  · have hq : (1 : ℚ)/2 ≤ q - ⌊q⌋ := not_lt.mp h1
    have h5 : (⌊q⌋ : ℚ) < (n : ℚ) - 1 := by linarith
    have h6 : ⌊q⌋ < n - 1 := by exact_mod_cast h5
    omega

/-- From the half-integer boundary up to an even integer, rounding lands
on that integer (ties go to even). -/
theorem rndHalfEven_eq_of {q : ℚ} {n : ℤ} (heven : Even n)
    (h1 : (n : ℚ) - 1/2 ≤ q) (h2 : q ≤ n) : rndHalfEven q = n := by
  by_cases hq : q = n
  · subst hq
    rw [rndHalfEven]
    simp [Int.floor_intCast]
  · have hlt : q < (n : ℚ) := lt_of_le_of_ne h2 hq
    have hfl : ⌊q⌋ = n - 1 := by
      rw [Int.floor_eq_iff]
      constructor <;> push_cast <;> linarith
    rw [rndHalfEven, hfl]
    have hfr : (1 : ℚ)/2 ≤ q - ((n : ℚ) - 1) := by linarith
    split_ifs with hc1 hc2 hc3
    · exfalso
      push_cast at hc1
      linarith
    · omega
    · exfalso
      rcases heven with ⟨k, hk⟩
      rcases hc3 with ⟨m, hm⟩
      omega
    · omega

theorem pyRound2_hundred : pyRound2 100 = 100 := by
  rw [pyRound2, show (100 : ℚ) * 100 = ((10000 : ℤ) : ℚ) by norm_num,
    rndHalfEven_int]
  norm_num

theorem cer_nonneg (r h : List Char) : 0 ≤ _simple_cer r h := by
  rw [_simple_cer]
  split_ifs <;> positivity

/-- Exact characterization of when the rounded accuracy reaches `100`:
the CER may be as large as `1/20000` (half of the last rounded digit). -/
theorem accuracy_eq_100_iff (r h : List Char) :
    calculate_accuracy r h = 100 ↔
      (if r = [] then h = [] else calculate_cer r h ≤ 1/20000) := by
  rw [calculate_accuracy]
  split_ifs with hr hh
  · simp [hh]
  · simp only [hh, iff_false]
    norm_num
  · have hc0 : 0 ≤ calculate_cer r h := cer_nonneg r h
    set c := calculate_cer r h with hc
    simp only [pyRound2]
    constructor
    · intro hacc
      have h10 : ((rndHalfEven (max 0 ((1 - c) * 100) * 100) : ℤ) : ℚ) = 10000 := by
        field_simp at hacc
        exact_mod_cast hacc
      have h10' : rndHalfEven (max 0 ((1 - c) * 100) * 100) = 10000 := by
        exact_mod_cast h10
      by_contra hgt
      push_neg at hgt
      have hbound : max 0 ((1 - c) * 100) * 100 < ((10000 : ℤ) : ℚ) - 1/2 := by
        have hx : (1 - c) * 100 * 100 < ((10000 : ℤ) : ℚ) - 1/2 := by
          push_cast
          linarith
        rcases max_cases 0 ((1 - c) * 100) with ⟨hm, _⟩ | ⟨hm, _⟩
        · rw [hm]
          push_cast
          linarith
        · rw [hm]
          exact hx
      have := rndHalfEven_lt hbound
      omega
    · intro hcle
      have hX : (0 : ℚ) ≤ (1 - c) * 100 := by linarith
      rw [max_eq_right hX]
      rw [rndHalfEven_eq_of (⟨5000, by norm_num⟩ : Even (10000 : ℤ))
        (by push_cast; linarith) (by push_cast; linarith)]
      norm_num

/-- Whitespace characters in the output of the collapse state machine
are all plain spaces. -/
theorem collapseGo_space_only : ∀ (l : List Char) (b : Bool), ∀ c ∈ collapseGo b l,
    isPySpace c → c = ' ' := by
  intro l
  induction l with
  | nil => intro b c hc; simp [collapseGo] at hc
  | cons c rest ih =>
    intro b d hd hsp
    by_cases hc : isPySpace c
    · rw [collapseGo, if_pos hc] at hd
      cases b with
      | true => exact ih true d hd hsp
      | false =>
        rcases List.mem_cons.mp hd with rfl | hd
        · rfl
        · exact ih true d hd hsp
    · rw [collapseGo, if_neg hc] at hd
      rcases List.mem_cons.mp hd with rfl | hd
      · exact absurd hsp hc
      · exact ih false d hd hsp

theorem collapseWS_space_only : ∀ l : List Char, ∀ c ∈ collapseWS l,
    isPySpace c → c = ' ' := by
  intro l c hc
  exact collapseGo_space_only l false c hc

/-- Inside a whitespace run, the next emitted character is not
whitespace. -/
theorem collapseGo_true_head : ∀ (l : List Char) (c : Char),
    (collapseGo true l).head? = some c → ¬ isPySpace c := by
  intro l
  induction l with
  | nil => intro c hc; simp [collapseGo] at hc
  | cons d rest ih =>
    intro c hc
    by_cases hd : isPySpace d
    · rw [collapseGo, if_pos hd] at hc
      exact ih c hc
    · rw [collapseGo, if_neg hd] at hc
      simp only [List.head?_cons, Option.some_inj] at hc
      subst hc
      exact hd

/-- No two adjacent whitespace characters survive the collapse state
machine. -/
theorem collapseGo_chain : ∀ (l : List Char) (b : Bool),
    (collapseGo b l).Chain' (fun a b => ¬(isPySpace a ∧ isPySpace b)) := by
  intro l
  induction l with
  | nil => intro b; simp [collapseGo]
  | cons c rest ih =>
    intro b
    by_cases hc : isPySpace c
    · rw [collapseGo, if_pos hc]
      cases b with
      | true => exact ih true
      | false =>
        rw [if_neg Bool.false_ne_true, List.chain'_cons']
        refine ⟨?_, ih true⟩
        intro d hd
        simp only [not_and]
        intro _
        exact collapseGo_true_head rest d hd
    · rw [collapseGo, if_neg hc]
      rw [List.chain'_cons']
      refine ⟨?_, ih false⟩
      intro d _
      simp only [not_and]
      intro hcc
      exact absurd hcc hc

theorem collapseWS_chain (l : List Char) :
    (collapseWS l).Chain' (fun a b => ¬(isPySpace a ∧ isPySpace b)) :=
  collapseGo_chain l false

/-- On input whose head is not whitespace (or empty), the two scanner
states agree. -/
theorem collapseGo_true_eq_false : ∀ (l : List Char),
    (∀ c, l.head? = some c → ¬ isPySpace c) →
    collapseGo true l = collapseGo false l := by
  intro l hl
  cases l with
  | nil => rfl
  | cons c rest =>
    have hc : ¬ isPySpace c := hl c rfl
    rw [collapseGo, collapseGo, if_neg hc, if_neg hc]

/-- The collapse state machine is the identity on lists whose whitespace
is already normalized (all spaces, never adjacent). -/
theorem collapseGo_id : ∀ l : List Char,
    (∀ c ∈ l, isPySpace c → c = ' ') →
    l.Chain' (fun a b => ¬(isPySpace a ∧ isPySpace b)) →
    collapseGo false l = l := by
  intro l
  induction l with
  | nil => intro _ _; rfl
  | cons c rest ih =>
    intro hso hch
    by_cases hc : isPySpace c
    · have hceq : c = ' ' := hso c (by simp) hc
      rw [collapseGo, if_pos hc, hceq]
      have hhead : ∀ d, rest.head? = some d → ¬ isPySpace d := by
        intro d hd
        cases rest with
        | nil => simp at hd
        | cons e r =>
          simp only [List.head?_cons, Option.some_inj] at hd
          subst hd
          have := (List.chain'_cons.mp hch).1
          simp only [not_and] at this
          exact this hc
      rw [collapseGo_true_eq_false rest hhead,
        ih (fun d hd => hso d (List.mem_cons_of_mem _ hd)) hch.tail,
        if_neg Bool.false_ne_true]
    · rw [collapseGo, if_neg hc,
        ih (fun d hd => hso d (List.mem_cons_of_mem _ hd)) hch.tail]

theorem collapseWS_id (l : List Char)
    (hso : ∀ c ∈ l, isPySpace c → c = ' ')
    (hch : l.Chain' (fun a b => ¬(isPySpace a ∧ isPySpace b))) :
    collapseWS l = l :=
  collapseGo_id l hso hch

theorem dropWhile_shape (p : Char → Bool) (l : List Char) :
    l.dropWhile p = [] ∨
      ∃ c r, l.dropWhile p = c :: r ∧ p c = false := by
  induction l with
  | nil => left; rfl
  | cons c r ih =>
    rw [List.dropWhile_cons]
    split
    · exact ih
    · right
      exact ⟨c, r, rfl, by simp_all⟩

theorem mem_pyStrip {c : Char} {l : List Char} (h : c ∈ pyStrip l) : c ∈ l := by
  rw [pyStrip] at h
  rw [List.mem_reverse] at h
  have h2 := (List.dropWhile_sublist _).mem h
  rw [List.mem_reverse] at h2
  exact (List.dropWhile_sublist _).mem h2

theorem chain_reverse_of_symm {R : Char → Char → Prop}
    (hs : ∀ a b, R a b → R b a) {l : List Char} (h : l.Chain' R) :
    l.reverse.Chain' R := by
  rw [List.chain'_reverse]
  exact h.imp fun a b h' => hs a b h'

theorem pyStrip_chain {R : Char → Char → Prop}
    (hs : ∀ a b, R a b → R b a) {l : List Char} (h : l.Chain' R) :
    (pyStrip l).Chain' R := by
  rw [pyStrip]
  apply chain_reverse_of_symm hs
  apply List.Chain'.suffix _ (List.dropWhile_suffix _)
  apply chain_reverse_of_symm hs
  exact List.Chain'.suffix h (List.dropWhile_suffix _)

/-- The head of a `pyStrip` output is never whitespace. -/
theorem pyStrip_head (l : List Char) :
    ∀ c, (pyStrip l).head? = some c → ¬ isPySpace c := by
  intro c hc
  rw [pyStrip] at hc
  set A := l.dropWhile (fun c => isPySpace c) with hA
  rcases dropWhile_shape (fun c => isPySpace c) A.reverse with hsh | ⟨c2, r2, hsh, hc2⟩
  · rw [hsh] at hc
    simp at hc
  · rw [hsh] at hc
    have hYlast : ((c2 :: r2).reverse).head? = A.reverse.getLast? := by
      rcases (List.dropWhile_suffix (l := A.reverse) (fun c => isPySpace c)) with ⟨t, ht⟩
      conv_rhs => rw [← ht]
      rw [hsh, List.head?_reverse, List.getLast?_append_cons]
    rw [hYlast, List.getLast?_reverse] at hc
    rcases dropWhile_shape (fun c => isPySpace c) l with hsh2 | ⟨c3, r3, hsh2, hc3⟩
    · rw [← hA] at hsh2
      rw [hsh2] at hc
      simp at hc
    · rw [← hA] at hsh2
      rw [hsh2] at hc
      simp only [List.head?_cons, Option.some_inj] at hc
      subst hc
      simp [hc3]

/-- The last character of a `pyStrip` output is never whitespace. -/
theorem pyStrip_getLast (l : List Char) :
    ∀ c, (pyStrip l).getLast? = some c → ¬ isPySpace c := by
  intro c hc
  rw [pyStrip, List.getLast?_reverse] at hc
  rcases dropWhile_shape (fun c => isPySpace c)
      ((l.dropWhile (fun c => isPySpace c)).reverse) with hsh | ⟨c2, r2, hsh, hc2⟩
  · rw [hsh] at hc
    simp at hc
  · rw [hsh] at hc
    simp only [List.head?_cons, Option.some_inj] at hc
    subst hc
    simp [hc2]

theorem dropWhile_eq_self_of_head (p : Char → Bool) (l : List Char)
    (h : ∀ c, l.head? = some c → ¬ p c) : l.dropWhile p = l := by
  cases l with
  | nil => rfl
  | cons c r =>
    rw [List.dropWhile_cons, if_neg (by simpa using h c rfl)]

theorem pyStrip_eq_self (l : List Char)
    (hh : ∀ c, l.head? = some c → ¬ isPySpace c)
    (hl : ∀ c, l.getLast? = some c → ¬ isPySpace c) : pyStrip l = l := by
  rw [pyStrip, dropWhile_eq_self_of_head _ _ hh]
  rw [dropWhile_eq_self_of_head _ _ (by simpa [List.head?_reverse] using hl)]
  exact List.reverse_reverse l

theorem map_ideographic_id (l : List Char)
    (h : ∀ c ∈ l, isPySpace c → c = ' ') :
    l.map (fun c => if c = '　' then ' ' else c) = l := by
  induction l with
  | nil => rfl
  | cons c r ih =>
    simp only [List.map_cons]
    rw [ih (fun d hd => h d (List.mem_cons_of_mem _ hd))]
    have hc : ¬ c = '　' := by
      intro hcc
      subst hcc
      have := h '　' (by simp) (by decide)
      exact absurd this (by decide)
    rw [if_neg hc]

theorem bump_any_iff (d : List (List (List Char) × ℕ)) (g : List (List Char)) :
    d.any (fun p => p.1 = g) = true ↔ g ∈ d.map Prod.fst := by
  simp [List.any_eq_true, List.mem_map]

/-- `bump` leaves the key list unchanged when the key is present and
appends it otherwise. -/
theorem bump_keys (d : List (List (List Char) × ℕ)) (g : List (List Char)) :
    (bump d g).map Prod.fst =
      if g ∈ d.map Prod.fst then d.map Prod.fst else d.map Prod.fst ++ [g] := by
  rw [bump]
  by_cases h : g ∈ d.map Prod.fst
  · rw [if_pos ((bump_any_iff d g).mpr h), if_pos h, List.map_map]
    apply List.map_congr_left
    intro p _
    by_cases hpg : p.1 = g <;> simp [hpg]
  · rw [if_neg (fun hc => h ((bump_any_iff d g).mp hc)), if_neg h]
    simp

/-- Invariant of the dict-building fold of `get_ngrams`: keys are the
distinct processed grams (no duplicates) and each value is the
multiplicity of its key among the processed grams. -/
theorem foldl_bump_inv : ∀ (rest P : List (List (List Char)))
    (d : List (List (List Char) × ℕ)),
    (d.map Prod.fst).Nodup →
    (∀ g, g ∈ d.map Prod.fst ↔ g ∈ P) →
    (∀ pr ∈ d, pr.2 = P.count pr.1) →
    ((rest.foldl bump d).map Prod.fst).Nodup ∧
    (∀ g, g ∈ (rest.foldl bump d).map Prod.fst ↔ g ∈ P ++ rest) ∧
    (∀ pr ∈ rest.foldl bump d, pr.2 = (P ++ rest).count pr.1) := by
  intro rest
  induction rest with
  | nil =>
    intro P d h1 h2 h3
    rw [List.append_nil]
    exact ⟨h1, h2, h3⟩
  | cons g rest ih =>
    intro P d h1 h2 h3
    have hstep1 : ((bump d g).map Prod.fst).Nodup := by
      rw [bump_keys]
      split_ifs with h
      · exact h1
      · simp [List.nodup_append, h1, h]
    have hstep2 : ∀ x, x ∈ (bump d g).map Prod.fst ↔ x ∈ P ++ [g] := by
      intro x
      rw [bump_keys]
      split_ifs with h
      · simp only [List.mem_append, List.mem_singleton, h2]
        constructor
        · exact fun hx => Or.inl hx
        · rintro (hx | rfl)
          · exact hx
          · exact (h2 x).mp h
      · simp [h2]
    have hstep3 : ∀ pr ∈ bump d g, pr.2 = (P ++ [g]).count pr.1 := by
      intro pr hpr
      rw [bump] at hpr
      split_ifs at hpr with h
      · rcases List.mem_map.mp hpr with ⟨p, hp, hfp⟩
        by_cases hpg : p.1 = g
        · rw [if_pos hpg] at hfp
          subst hfp
          simp [List.count_append, hpg, h3 p hp]
        · rw [if_neg hpg] at hfp
          subst hfp
          simp [List.count_append, hpg, h3 p hp]
      · have hgd : g ∉ d.map Prod.fst := fun hc => by
          simp [(bump_any_iff d g).mpr hc] at h
        rcases List.mem_append.mp hpr with hp | hp
        · have hpne : pr.1 ≠ g := fun hc => hgd (List.mem_map.mpr ⟨pr, hp, hc⟩)
          simp [List.count_append, hpne, h3 pr hp]
        · simp only [List.mem_singleton] at hp
          subst hp
          have hgP : g ∉ P := fun hc => hgd ((h2 g).mpr hc)
          simp [List.count_append, List.count_eq_zero.mpr hgP]
    have := ih (P ++ [g]) (bump d g) hstep1 hstep2 hstep3
    simpa [List.append_assoc] using this

theorem get_ngrams_spec (text : List Char) (n : ℕ) :
    ((get_ngrams text n).map Prod.fst).Nodup ∧
    (∀ g, g ∈ (get_ngrams text n).map Prod.fst ↔ g ∈ ngramsList n (pySplit text)) ∧
    (∀ pr ∈ get_ngrams text n, pr.2 = (ngramsList n (pySplit text)).count pr.1) := by
  rw [get_ngrams]
  have := foldl_bump_inv (ngramsList n (pySplit text)) [] []
    (by simp) (by simp) (by simp)
  simpa using this

theorem get_ngrams_eq_nil_iff (text : List Char) (n : ℕ) :
    get_ngrams text n = [] ↔ ngramsList n (pySplit text) = [] := by
  constructor
  · intro h
    cases hL : ngramsList n (pySplit text) with
    | nil => rfl
    | cons g L =>
      have hmem := ((get_ngrams_spec text n).2.1 g).mpr (by rw [hL]; simp)
      rw [h] at hmem
      simp at hmem
  · intro h
    rw [get_ngrams, h]
    rfl

/-- Looking a gram up in the dict built by `get_ngrams` returns its
multiplicity in the window list. -/
theorem dictVal_eq_count (d : List (List (List Char) × ℕ)) (P : List (List (List Char)))
    (h2 : ∀ g, g ∈ d.map Prod.fst ↔ g ∈ P)
    (h3 : ∀ pr ∈ d, pr.2 = P.count pr.1) (g : List (List Char)) :
    dictVal d g = P.count g := by
  rw [dictVal]
  cases hf : d.find? (fun p => p.1 = g) with
  | none =>
    rw [List.find?_eq_none] at hf
    have hgP : g ∉ P := by
      rw [← h2]
      intro hmem
      rcases List.mem_map.mp hmem with ⟨p, hp, hpg⟩
      exact absurd (by simpa using hpg) (by simpa using hf p hp)
    simp [List.count_eq_zero.mpr hgP]
  | some pr =>
    have hmem := List.mem_of_find?_eq_some hf
    have hpg : pr.1 = g := by simpa using List.find?_some hf
    simp [h3 pr hmem, hpg]

theorem foldl_add_snd (d : List (List (List Char) × ℕ)) : ∀ s : ℕ,
    d.foldl (fun acc p => acc + p.2) s = s + (d.map Prod.snd).sum := by
  induction d with
  | nil => intro s; simp
  | cons p d ih =>
    intro s
    simp only [List.foldl_cons, List.map_cons, List.sum_cons, ih (s + p.2)]
    omega

theorem foldl_match_sum (R : List (List (List Char) × ℕ))
    (d : List (List (List Char) × ℕ)) : ∀ s : ℕ,
    d.foldl (fun acc p => if R.any (fun q => q.1 = p.1)
      then acc + min p.2 (dictVal R p.1) else acc) s =
      s + (d.map (fun p => if R.any (fun q => q.1 = p.1)
        then min p.2 (dictVal R p.1) else 0)).sum := by
  induction d with
  | nil => intro s; simp
  | cons p d ih =>
    intro s
    simp only [List.foldl_cons, List.map_cons, List.sum_cons]
    by_cases h : R.any (fun q => q.1 = p.1)
    · rw [if_pos h, if_pos h, ih]
      omega
    · rw [if_neg h, if_neg h, ih]
      omega

/-- The two lawful `BEq` instances on gram lists agree (bridging the
default instance used in the definitions with the one of the `count`
lemmas). -/
theorem gramBEq_bridge :
    (List.instBEq : BEq (List (List Char))) = instBEqOfDecidableEq :=
  lawful_beq_subsingleton _ _

/-- The dict-based per-order BLEU precision of the source equals the
spec-level clipped n-gram precision. -/
theorem bleuScore_eq_clipped (r h : List Char) (n : ℕ) :
    bleuScore r h n = clippedPrecision r h n := by
  simp only [bleuScore, clippedPrecision]
  by_cases hnil : get_ngrams h n = []
  · rw [if_pos hnil, if_pos ((get_ngrams_eq_nil_iff h n).mp hnil)]
  · have hHne : ngramsList n (pySplit h) ≠ [] :=
      fun hc => hnil ((get_ngrams_eq_nil_iff h n).mpr hc)
    rw [if_neg hnil, if_neg hHne]
    obtain ⟨hnodH, hmemH, hvalH⟩ := get_ngrams_spec h n
    obtain ⟨_, hmemR, hvalR⟩ := get_ngrams_spec r n
    have hkeys : ((get_ngrams h n).map Prod.fst).toFinset =
        (ngramsList n (pySplit h)).toFinset := by
      apply Finset.ext
      intro g
      simp [List.mem_toFinset, hmemH g]
    have htot : (get_ngrams h n).foldl (fun acc p => acc + p.2) 0 =
        (ngramsList n (pySplit h)).length := by
      rw [foldl_add_snd, Nat.zero_add,
        List.map_congr_left (g := fun p => (ngramsList n (pySplit h)).count p.1) hvalH,
        show (get_ngrams h n).map (fun p => (ngramsList n (pySplit h)).count p.1) =
          ((get_ngrams h n).map Prod.fst).map
            (fun g => (ngramsList n (pySplit h)).count g) from by
          rw [List.map_map]
          rfl,
        ← List.sum_toFinset _ hnodH, hkeys]
      rw [show (fun g => (ngramsList n (pySplit h)).count g) =
          (fun g => @List.count _ instBEqOfDecidableEq g (ngramsList n (pySplit h))) from by
        rw [← gramBEq_bridge]]
      exact List.sum_toFinset_count_eq_length _
    have hmatch : (get_ngrams h n).foldl
        (fun acc p => if (get_ngrams r n).any (fun q => q.1 = p.1)
          then acc + min p.2 (dictVal (get_ngrams r n) p.1) else acc) 0 =
        ∑ g ∈ (ngramsList n (pySplit h)).toFinset,
          min ((ngramsList n (pySplit h)).count g) ((ngramsList n (pySplit r)).count g) := by
      rw [foldl_match_sum, Nat.zero_add]
      have hterm : ∀ p ∈ get_ngrams h n,
          (if (get_ngrams r n).any (fun q => q.1 = p.1)
            then min p.2 (dictVal (get_ngrams r n) p.1) else 0) =
          min ((ngramsList n (pySplit h)).count p.1)
            ((ngramsList n (pySplit r)).count p.1) := by
        intro p hp
        have hdv : dictVal (get_ngrams r n) p.1 = (ngramsList n (pySplit r)).count p.1 :=
          dictVal_eq_count _ _ hmemR hvalR p.1
        have hany : (get_ngrams r n).any (fun q => q.1 = p.1) = true ↔
            p.1 ∈ ngramsList n (pySplit r) := by
          rw [bump_any_iff, hmemR]
        by_cases hprm : p.1 ∈ ngramsList n (pySplit r)
        · rw [if_pos (hany.mpr hprm), hvalH p hp, hdv]
        · rw [if_neg (fun hc => hprm (hany.mp hc))]
          have hz : (ngramsList n (pySplit r)).count p.1 = 0 :=
            List.count_eq_zero.mpr hprm
          simp [hz]
      rw [List.map_congr_left hterm,
        show (get_ngrams h n).map (fun p =>
            min ((ngramsList n (pySplit h)).count p.1)
              ((ngramsList n (pySplit r)).count p.1)) =
          ((get_ngrams h n).map Prod.fst).map (fun g =>
            min ((ngramsList n (pySplit h)).count g)
              ((ngramsList n (pySplit r)).count g)) from by
          rw [List.map_map]
          rfl,
        ← List.sum_toFinset _ hnodH, hkeys]
    rw [htot, hmatch, if_pos (List.length_pos.mpr hHne)]

/-- C9: the number of ErrorDetail entries returned by `get_error_details`
equals `_levenshtein_distance(reference, hypothesis)`: the full-table
backtrace implementation and the rolling-row distance-only implementation
agree on the character edit distance. -/
theorem claim9_error_count (reference hypothesis : List Char) :
    (get_error_details reference hypothesis).length =
      _levenshtein_distance reference hypothesis := by
  rw [get_error_details, List.length_reverse, backtrace_length, D_eq_lev,
    lev_reverse, levenshtein_distance_eq_lev, levC]

/-- C3 (amended): every ErrorDetail returned by `get_error_details` has
`position ≤ max(m, n)`; the claimed lower bound `0 ≤ position` is false
(see the counterexample), because the counter decrements once per
backtrace step and the backtrace can take more than `max(m, n)` steps. -/
theorem claim3_position_bounded (reference hypothesis : List Char) (e : ErrEntry)
    (he : e ∈ get_error_details reference hypothesis) :
    e.position ≤ (max reference.length hypothesis.length : ℤ) := by
  rw [get_error_details, List.mem_reverse] at he
  exact backtrace_pos_le _ _ _ e he

/-- C3 witness: on reference `"a"`, hypothesis `"b"`, the single
substitution error is in bounds. -/
theorem claim3_position_bounded_witness :
    (⟨Op.substitute, 1, ['a'], ['b'], EType.substitutionHomophone⟩ : ErrEntry) ∈
      get_error_details ['a'] ['b'] ∧
    (⟨Op.substitute, 1, ['a'], ['b'], EType.substitutionHomophone⟩ : ErrEntry).position ≤
      (max (['a'] : List Char).length (['b'] : List Char).length : ℤ) :=
  ⟨by decide, claim3_position_bounded ['a'] ['b'] _ (by decide)⟩

/-- C3 counterexample: on reference `"bbaa"`, hypothesis `"aabb"`, the
backtrace takes six steps from a counter starting at `4`, and the last
emitted error has `position = -1 < 0`, refuting `0 ≤ position`. -/
theorem claim3_counterexample :
    ¬ (∀ e ∈ get_error_details ['b', 'b', 'a', 'a'] ['a', 'a', 'b', 'b'],
        0 ≤ e.position) := by
  decide

/-- C4: at a non-matching interior cell, the recorded operation is the
first among delete, insert, substitute (in that fixed order) whose cost
attains the minimum — Python `min` tie-breaking, deterministically. -/
theorem claim4_tie_break (a b : Char) (p q : List Char) (hab : a ≠ b) :
    (D p (b :: q) + 1 ≤ D (a :: p) q + 1 ∧ D p (b :: q) + 1 ≤ D p q + 1 →
      opAt (a :: p) (b :: q) = some ⟨Op.delete, [a], []⟩) ∧
    (D (a :: p) q + 1 < D p (b :: q) + 1 ∧ D (a :: p) q + 1 ≤ D p q + 1 →
      opAt (a :: p) (b :: q) = some ⟨Op.insert, [], [b]⟩) ∧
    (D p q + 1 < D p (b :: q) + 1 ∧ D p q + 1 < D (a :: p) q + 1 →
      opAt (a :: p) (b :: q) = some ⟨Op.substitute, [a], [b]⟩) := by
  simp only [opAt, if_neg hab, pyMinFst3_snd]
  refine ⟨fun h => ?_, fun h => ?_, fun h => ?_⟩
  · rw [if_pos h]
  · rw [if_neg (by omega), if_pos h.2]
  · rw [if_neg (by omega), if_neg (by omega)]

/-- C4 witness: the interior cell of `"ab"` vs `"ba"` where all three
costs are `2`: the three-way tie is resolved to delete. -/
theorem claim4_tie_break_witness :
    ('b' ≠ 'a') ∧
    (D ['a'] ['a', 'b'] + 1 ≤ D ['b', 'a'] ['b'] + 1 ∧
      D ['a'] ['a', 'b'] + 1 ≤ D ['a'] ['b'] + 1) ∧
    opAt ['b', 'a'] ['a', 'b'] = some ⟨Op.delete, ['b'], []⟩ :=
  ⟨by decide, ⟨by decide, by decide⟩,
    (claim4_tie_break 'b' 'a' ['a'] ['b'] (by decide)).1 ⟨by decide, by decide⟩⟩

/-- C5: the built-in CER is the spec-level character edit distance divided
by the reference length for a non-empty reference, `1` for an empty
reference with non-empty hypothesis, and `0` when both are empty (the
divisor is only used when it is non-zero). -/
theorem claim5_cer (reference hypothesis : List Char) :
    (reference = [] →
      _simple_cer reference hypothesis = if hypothesis = [] then 0 else 1) ∧
    (reference ≠ [] →
      _simple_cer reference hypothesis =
        (levC reference hypothesis : ℚ) / (reference.length : ℚ)) := by
  constructor
  · intro hr
    rw [_simple_cer, if_pos hr]
  · intro hr
    rw [_simple_cer, if_neg hr, levenshtein_distance_eq_lev]

/-- C5 witness: on reference `"a"`, hypothesis `"b"`. -/
theorem claim5_cer_witness :
    (['a'] : List Char) ≠ [] ∧
    _simple_cer ['a'] ['b'] = (levC ['a'] ['b'] : ℚ) / ((['a'] : List Char).length : ℚ) :=
  ⟨by decide, (claim5_cer ['a'] ['b']).2 (by decide)⟩

/-- C6: the ErrorDetail list returned by `get_error_details`, and hence
the `errors` field of every ComparisonResult, has monotonically
non-decreasing positions (the discovery order is reversed on return). -/
theorem claim6_positions_monotone (normalizeFlag : Bool)
    (reference hypothesis : List Char) :
    ((get_error_details reference hypothesis).map (fun e => e.position)).Chain'
      (fun x y => x ≤ y) ∧
    (((TextComparator.compare normalizeFlag reference hypothesis).errors).map
      (fun e => e.position)).Chain' (fun x y => x ≤ y) := by
  have key : ∀ r h : List Char,
      ((get_error_details r h).map (fun e => e.position)).Chain' (fun x y => x ≤ y) := by
    intro r h
    rw [get_error_details]
    have hp := backtrace_pos_pairwise r.reverse h.reverse (max r.length h.length : ℤ)
    have hp2 : (backtrace r.reverse h.reverse (max r.length h.length : ℤ)).reverse.Pairwise
        (fun e f => e.position < f.position) := List.pairwise_reverse.mpr hp
    have hp3 := hp2.map (f := fun e : ErrEntry => e.position)
      (fun e f hef => hef)
    exact List.Pairwise.chain' (hp3.imp fun hef => le_of_lt hef)
  refine ⟨key reference hypothesis, ?_⟩
  simp only [TextComparator.compare, List.map_map]
  exact key (_normalize_text normalizeFlag reference)
    (_normalize_text normalizeFlag hypothesis)

/-- C7: comparing any text with itself yields accuracy 100, WER 0, CER 0
and an empty error list, whichever way the comparator was configured. -/
theorem claim7_compare_self (normalizeFlag : Bool) (t : List Char) :
    (TextComparator.compare normalizeFlag t t).accuracy = 100 ∧
    (TextComparator.compare normalizeFlag t t).wer = 0 ∧
    (TextComparator.compare normalizeFlag t t).cer = 0 ∧
    (TextComparator.compare normalizeFlag t t).errors = [] := by
  have hcer : ∀ u : List Char, calculate_cer u u = 0 := by
    intro u
    rw [calculate_cer, _simple_cer]
    split_ifs with h
    · rfl
    · rw [levenshtein_distance_eq_lev, levC, lev_self]
      simp
  have hwer : ∀ u : List Char, calculate_wer u u = 0 := by
    intro u
    rw [calculate_wer]
    simp only [_simple_wer]
    split_ifs with h
    · rfl
    · rw [levenshtein_distance_eq_lev, levC, lev_self]
      simp
  have hacc : ∀ u : List Char, calculate_accuracy u u = 100 := by
    intro u
    rw [calculate_accuracy]
    split_ifs with h
    · rfl
    · rw [hcer u]
      norm_num
      exact pyRound2_hundred
  have herr : ∀ u : List Char, get_error_details u u = [] := by
    intro u
    rw [get_error_details, backtrace_self]
    rfl
  simp only [TextComparator.compare]
  exact ⟨hacc _, hwer _, hcer _, by rw [herr]; rfl⟩

/-- C1 counterexample: on normalized reference `"ab"` and hypothesis
`"cd"` the reference splits into one word, the word-granularity edit
distance is `1`, but the built-in WER is `2.0` (the implementation runs
the edit distance on characters of the space-joined words). -/
theorem claim1_counterexample :
    _simple_wer ['a', 'b'] ['c', 'd'] ≠
      (levW (pySplit ['a', 'b']) (pySplit ['c', 'd']) : ℚ) /
        ((pySplit ['a', 'b']).length : ℚ) := by
  have h1 : pySplit ['a', 'b'] = [['a', 'b']] := by decide
  have h2 : pySplit ['c', 'd'] = [['c', 'd']] := by decide
  have h3 : _simple_wer ['a', 'b'] ['c', 'd'] = 2 := by
    simp only [_simple_wer, h1, h2]
    rw [if_neg (by decide),
      show _levenshtein_distance (joinSpace [['a', 'b']]) (joinSpace [['c', 'd']]) = 2
        from by decide]
    norm_num
  have h4 : levW [['a', 'b']] [['c', 'd']] = 1 := by decide
  rw [h3, h1, h2, h4]
  norm_num

/-- C1 (amended): for a reference that splits into at least one word, the
built-in WER equals the CHARACTER-granularity edit distance between the
space-joined word sequences, divided by the reference word count (not the
word-granularity distance); the zero-word conventions are as claimed. -/
theorem claim1_wer_amended (reference hypothesis : List Char) :
    (pySplit reference = [] →
      _simple_wer reference hypothesis = if pySplit hypothesis = [] then 0 else 1) ∧
    (pySplit reference ≠ [] →
      _simple_wer reference hypothesis =
        (levC (joinSpace (pySplit reference)) (joinSpace (pySplit hypothesis)) : ℚ) /
          ((pySplit reference).length : ℚ)) := by
  constructor
  · intro hr
    simp only [_simple_wer]
    rw [if_pos hr]
  · intro hr
    simp only [_simple_wer]
    rw [if_neg hr, levenshtein_distance_eq_lev]

/-- C1 witness: on reference `"ab"`, hypothesis `"cd"`. -/
theorem claim1_wer_amended_witness :
    pySplit ['a', 'b'] ≠ [] ∧
    _simple_wer ['a', 'b'] ['c', 'd'] =
      (levC (joinSpace (pySplit ['a', 'b'])) (joinSpace (pySplit ['c', 'd'])) : ℚ) /
        ((pySplit ['a', 'b']).length : ℚ) :=
  ⟨by decide, (claim1_wer_amended ['a', 'b'] ['c', 'd']).2 (by decide)⟩

/-- C2 (amended): `calculate_accuracy` reaches `100.0` exactly when the
CER is at most `1/20000` (the two-decimal rounding threshold), not only
when it is `0`; for an empty reference the accuracy is `100.0` exactly
when the hypothesis is empty. -/
theorem claim2_accuracy_amended (reference hypothesis : List Char) :
    calculate_accuracy reference hypothesis = 100 ↔
      (if reference = [] then hypothesis = []
       else calculate_cer reference hypothesis ≤ 1/20000) :=
  accuracy_eq_100_iff reference hypothesis

/-- C2 counterexample: a reference of 100000 `'a'`s against 99999 `'a'`s
has CER `1/100000 ≠ 0`, yet the rounded accuracy is exactly `100.0`,
refuting `accuracy == 100 ↔ cer == 0`. -/
theorem claim2_counterexample :
    calculate_accuracy (List.replicate 100000 'a') (List.replicate 99999 'a') = 100 ∧
    calculate_cer (List.replicate 100000 'a') (List.replicate 99999 'a') ≠ 0 := by
  have hr : (List.replicate 100000 'a') ≠ ([] : List Char) := by
    rw [show (100000 : ℕ) = 99999 + 1 by norm_num]
    exact List.replicate_succ_ne_nil 99999 'a'
  have hd : _levenshtein_distance (List.replicate 100000 'a') (List.replicate 99999 'a') = 1 := by
    rw [levenshtein_distance_eq_lev, levC,
      show (100000 : ℕ) = 99999 + 1 by norm_num]
    exact lev_replicate_succ 'a' 99999
  have hcer : calculate_cer (List.replicate 100000 'a') (List.replicate 99999 'a') = 1/100000 := by
    rw [calculate_cer, _simple_cer, if_neg hr, hd, List.length_replicate]
    norm_num
  constructor
  · rw [accuracy_eq_100_iff, if_neg hr, hcer]
    norm_num
  · rw [hcer]
    norm_num

/-- C8: the built-in BLEU is `exp(mean(ln p_n)) × 100` over the four
clipped word n-gram precisions when all are strictly positive, and `0.0`
otherwise; a hypothesis with zero tokens, or a zero precision at any
order up to 4, yields `0.0`. -/
theorem claim8_bleu (reference hypothesis : List Char) :
    (pySplit hypothesis = [] → _simple_bleu reference hypothesis = 0) ∧
    ((∀ n ∈ [1, 2, 3, 4], 0 < clippedPrecision reference hypothesis n) →
      _simple_bleu reference hypothesis =
        Real.exp ((([1, 2, 3, 4].map (fun n =>
          Real.log ((clippedPrecision reference hypothesis n : ℚ) : ℝ))).sum) / 4) * 100) ∧
    ((∃ n ∈ [1, 2, 3, 4], clippedPrecision reference hypothesis n ≤ 0) →
      _simple_bleu reference hypothesis = 0) := by
  have hsc : ∀ n, bleuScore reference hypothesis n = clippedPrecision reference hypothesis n :=
    bleuScore_eq_clipped reference hypothesis
  have hmap : [1, 2, 3, 4].map (bleuScore reference hypothesis) =
      [1, 2, 3, 4].map (clippedPrecision reference hypothesis) :=
    List.map_congr_left (fun n _ => hsc n)
  refine ⟨?_, ?_, ?_⟩
  · intro h
    simp only [_simple_bleu]
    rw [if_pos h]
  · intro hall
    have hne : pySplit hypothesis ≠ [] := by
      intro hc
      have h1 := hall 1 (by simp)
      simp only [clippedPrecision, hc] at h1
      rw [show ngramsList 1 ([] : List (List Char)) = [] from rfl, if_pos rfl] at h1
      exact absurd h1 (lt_irrefl 0)
    simp only [_simple_bleu]
    rw [if_neg hne, hmap]
    have hallb : ([1, 2, 3, 4].map (clippedPrecision reference hypothesis)).all
        (fun s => 0 < s) = true := by
      simp only [List.all_eq_true, List.mem_map, decide_eq_true_eq]
      rintro s ⟨n, hn, rfl⟩
      exact hall n hn
    rw [if_pos hallb, List.map_map]
    norm_num
  · rintro ⟨n, hn, hle⟩
    by_cases hnil : pySplit hypothesis = []
    · simp only [_simple_bleu]
      rw [if_pos hnil]
    · simp only [_simple_bleu]
      rw [if_neg hnil]
      have hallb : ([1, 2, 3, 4].map (bleuScore reference hypothesis)).all
          (fun s => 0 < s) = false := by
        apply List.all_eq_false.mpr
        refine ⟨clippedPrecision reference hypothesis n, ?_, by simpa using hle⟩
        rw [hmap]
        exact List.mem_map.mpr ⟨n, hn, rfl⟩
      rw [hallb, if_neg Bool.false_ne_true]
      norm_num

/-- C8 witness: a hypothesis with no tokens gives 0; for `"a a a a"`
against itself all four precisions are `1 > 0` and the score is the
geometric-mean formula; for `"a"` vs `"b"` the unigram precision is `0`
and the score is 0. -/
theorem claim8_bleu_witness :
    (pySplit ([] : List Char) = [] ∧ _simple_bleu ['a'] [] = 0) ∧
    ((∀ n ∈ [1, 2, 3, 4], 0 < clippedPrecision wtxt wtxt n) ∧
      _simple_bleu wtxt wtxt =
        Real.exp ((([1, 2, 3, 4].map (fun n =>
          Real.log ((clippedPrecision wtxt wtxt n : ℚ) : ℝ))).sum) / 4) * 100) ∧
    ((∃ n ∈ [1, 2, 3, 4], clippedPrecision ['a'] ['b'] n ≤ 0) ∧
      _simple_bleu ['a'] ['b'] = 0) := by
  have hcp : ∀ n ∈ [1, 2, 3, 4], 0 < clippedPrecision wtxt wtxt n := by
    intro n hn
    have hnum : ∀ m ∈ [1, 2, 3, 4], 0 <
        (∑ g ∈ (ngramsList m (pySplit wtxt)).toFinset,
          min ((ngramsList m (pySplit wtxt)).count g)
            ((ngramsList m (pySplit wtxt)).count g)) := by decide
    have hne : ngramsList n (pySplit wtxt) ≠ [] := by
      fin_cases hn <;> decide
    simp only [clippedPrecision]
    rw [if_neg hne]
    have h1 := hnum n hn
    apply div_pos
    · exact_mod_cast h1
    · exact_mod_cast List.length_pos.mpr hne
  have hzero : ∃ n ∈ [1, 2, 3, 4], clippedPrecision ['a'] ['b'] n ≤ 0 := by
    refine ⟨1, by simp, ?_⟩
    simp only [clippedPrecision]
    rw [if_neg (by decide),
      show (∑ g ∈ (ngramsList 1 (pySplit ['b'])).toFinset,
        min ((ngramsList 1 (pySplit ['b'])).count g)
          ((ngramsList 1 (pySplit ['a'])).count g)) = 0 from by decide]
    norm_num
  exact ⟨⟨rfl, (claim8_bleu ['a'] []).1 rfl⟩,
    ⟨hcp, (claim8_bleu wtxt wtxt).2.1 hcp⟩,
    ⟨hzero, (claim8_bleu ['a'] ['b']).2.2 hzero⟩⟩

/-- C10: text normalization is idempotent with `normalize=True` and is
the identity with `normalize=False`. -/
theorem claim10_normalize_idempotent (t : List Char) :
    _normalize_text true (_normalize_text true t) = _normalize_text true t ∧
    _normalize_text false t = t := by
  constructor
  · have hs : ∀ a b : Char, (¬(isPySpace a ∧ isPySpace b)) → (¬(isPySpace b ∧ isPySpace a)) :=
      fun a b hab hc => hab ⟨hc.2, hc.1⟩
    rw [show _normalize_text true t =
        pyStrip (collapseWS (t.map (fun c => if c = '　' then ' ' else c))) from by
      rw [_normalize_text, if_neg (by simp)]]
    set u := collapseWS (t.map (fun c => if c = '　' then ' ' else c)) with hu
    have hso_v : ∀ c ∈ pyStrip u, isPySpace c → c = ' ' :=
      fun c hc => collapseWS_space_only _ c (mem_pyStrip hc)
    have hch_v : (pyStrip u).Chain' (fun a b => ¬(isPySpace a ∧ isPySpace b)) :=
      pyStrip_chain hs (collapseWS_chain _)
    rw [_normalize_text, if_neg (by simp),
      map_ideographic_id (pyStrip u) hso_v,
      collapseWS_id (pyStrip u) hso_v hch_v,
      pyStrip_eq_self (pyStrip u) (pyStrip_head u) (pyStrip_getLast u)]
  · rw [_normalize_text, if_pos (by simp)]

end ShoBond
